import Mathlib

/-!
# Verification of the mutavault `kv` traversal and metadata commands

This file is a shallow embedding, in Lean 4, of the core of `main.go` from
sapcc/mutavault:

* `listall` / `listSecretDirRecurse` / `listSecretDir` — the bounded-concurrency
  recursive walk of a kvv2 metadata tree (modelled as a pure function over an
  abstract remote store; the data-flow of the concurrent Go program is
  linearized in listing order — the semaphore and the goroutine fan-out do not
  influence computed values, only scheduling);
* the admission gate (`golang.org/x/sync/semaphore.Weighted`, an external
  dependency) and the result-aggregation mutex (`sync.Mutex`), modelled as
  small transition systems following the contract in the specification — the
  mutex model also carries the writer structure of the fan-out loop, including
  the main goroutine's direct, unguarded append to the shared collection;
* `getcustommetas` / `setcustommetas` — the custom-metadata read and write
  commands.

Go strings are modelled as `List Char`, Go `map[string]any` as an association
list with lookup semantics, fallible Go code as `Except`, and the (potentially
divergent) recursion of `listSecretDirRecurse` is given fuel: `none` means the
recursion did not terminate within the given fuel.
-/

namespace Mutavault

/-- A Go string, modelled as its list of characters. -/
abbrev Str := List Char

/-- `const concurrency int64 = 10` from `main.go`. -/
def concurrency : Nat := 10

/-- An element of the `[]interface{}` slice found under the `"keys"` field of a
listing response: either a JSON string or some non-string value. -/
inductive Entry where
  | str (s : Str)
  | nonStr (tag : Nat)
deriving DecidableEq

/-- The possible behaviours of the remote store for one
`client.Logical().ListWithContext` call, as distinguished by `listSecretDir`:
a 403 response error, any other error, a `nil` secret (no data: the path is a
leaf), a secret whose `Data["keys"]` is not an `[]interface{}`, or a secret
carrying a `keys` slice. -/
inductive Remote where
  | forbidden
  | respErr (msg : Str)
  | noData
  | noKeys
  | keys (es : List Entry)
deriving DecidableEq

/-- The errors `listSecretDir` can return, one per `fmt.Errorf`/wrap site. -/
inductive WalkErr where
  | listFailed (path : Str) (msg : Str)
  | missingKeys (path : Str)
  | nonStringKeys (path : Str)
deriving DecidableEq

/-- Admission-gate events emitted by `listSecretDir`:
`sema.Acquire(ctx, 1)` (successful) and `sema.Release(1)`. -/
inductive GateEv where
  | acq
  | rel
deriving DecidableEq

/-- What one call of `listSecretDir` produces: its return value, the lines it
prints to stderr, and the admission-gate events it performs, in order. -/
structure DirResult where
  res : Except WalkErr (List Str)
  stderr : List Str
  gate : List GateEv

/-- `interfaceSliceToStringSlice` from `main.go`: convert an `[]interface{}`
to `[]string`, failing on the first element that is not a string. -/
def interfaceSliceToStringSlice : List Entry → Except Str (List Str)
  | [] => .ok []
  | Entry.nonStr _ :: _ => .error "element is not a string".data
  | Entry.str s :: rest =>
    match interfaceSliceToStringSlice rest with
    | .error e => .error e
    | .ok r => .ok (s :: r)

/-- The `"/metadata/"` infix of the query
`fmt.Sprintf("%s/metadata/%s", mount, path)`. -/
def metadataSeg : Str := "/metadata/".data

/-- The full query string `listSecretDir` sends to the remote store. -/
def listQuery (mount path : Str) : Str := mount ++ metadataSeg ++ path

/-- `listSecretDir` from `main.go`.  The remote store is abstracted as a
function from the query string to a `Remote` behaviour.  The gate trace is
`[acq, rel]` on every path: the Go code acquires the semaphore, performs the
call, and releases before looking at the outcome, so every exit path after a
successful acquire performs exactly one release. -/
def listSecretDir (store : Str → Remote) (mount path : Str) : DirResult :=
  let gate := [GateEv.acq, GateEv.rel]
  match store (listQuery mount path) with
  | .forbidden =>
    ⟨.ok [], [("access to ".data ++ path ++ " is forbidden".data)], gate⟩
  | .respErr m => ⟨.error (.listFailed path m), [], gate⟩
  | .noData => ⟨.ok [], [], gate⟩
  | .noKeys => ⟨.error (.missingKeys path), [], gate⟩
  | .keys es =>
    match interfaceSliceToStringSlice es with
    | .error _ => ⟨.error (.nonStringKeys path), [], gate⟩
    | .ok ks => ⟨.ok ks, [], gate⟩

/-- `strings.HasSuffix(next, "/")`: the last character of the path is the
directory separator. -/
def hasSuffixSlash (s : Str) : Bool := s.reverse.head? == some '/'

/-- The final aggregation loop of `listSecretDirRecurse` (lines 131–138 of
`main.go`): scan the collected per-child results, return the first error if
any, otherwise append all value slices in collection order. -/
def mergeResults : List (Except WalkErr (List Str)) → Except WalkErr (List Str)
  | [] => .ok []
  | .error e :: _ => .error e
  | .ok v :: rest =>
    match mergeResults rest with
    | .error e => .error e
    | .ok vs => .ok (v ++ vs)

/-- The fan-out loop of `listSecretDirRecurse` (lines 111–129 of `main.go`),
linearized in listing order: for each `subPath`, `next := path + subPath`; a
path not ending in the separator is recorded directly as a one-leaf result, a
path ending in the separator is walked by the supplied recursion (one goroutine
per child in the Go code).  `none` propagates fuel exhaustion of a child. -/
def spawnAll (walk : Str → Option (Except WalkErr (List Str))) (path : Str) :
    List Str → Option (List (Except WalkErr (List Str)))
  | [] => some []
  | sub :: rest =>
    let r := if hasSuffixSlash (path ++ sub) then walk (path ++ sub)
             else some (.ok [path ++ sub])
    match r, spawnAll walk path rest with
    | some a, some rs => some (a :: rs)
    | _, _ => none

/-- `listSecretDirRecurse` from `main.go`, with fuel: list the directory, fail
if the listing failed, otherwise process every child and merge the collected
results.  `none` means the recursion did not terminate within `fuel` levels. -/
def listSecretDirRecurse (store : Str → Remote) (mount : Str) :
    Nat → Str → Option (Except WalkErr (List Str))
  | 0, _ => none
  | fuel + 1, path =>
    match (listSecretDir store mount path).res with
    | .error e => some (.error e)
    | .ok subPaths =>
      match spawnAll (listSecretDirRecurse store mount fuel) path subPaths with
      | none => none
      | some results => some (mergeResults results)

/-! ## Synthetic trees

A synthetic remote hierarchy, as in §8 of the specification: every node is a
leaf, an ordinary directory, a directory whose listing is forbidden (403), a
node whose listing call fails with a transport error, a node whose response
lacks the `keys` field, or a node whose `keys` slice contains a non-string
element.  A store *serves* such a tree when it answers every query the walker
can make with the behaviour the tree prescribes. -/

mutual
inductive VTree where
  | leaf : VTree
  | dir : VForest → VTree
  | deniedDir : VForest → VTree
  | errDir : Str → VTree
  | noKeysDir : VTree
  | nonStrDir : List Entry → VTree

inductive VForest where
  | nil : VForest
  | cons : Str → VTree → VForest → VForest
end

/-- The names in a forest, in listing order. -/
def childNames : VForest → List Str
  | .nil => []
  | .cons n _ rest => n :: childNames rest

/-- The remote behaviour of a single node. -/
def nodeResp : VTree → Remote
  | .leaf => .noData
  | .dir f => .keys ((childNames f).map Entry.str)
  | .deniedDir _ => .forbidden
  | .errDir m => .respErr m
  | .noKeysDir => .noKeys
  | .nonStrDir es => .keys es

/-- A valid name for a leaf child: nonempty, without the separator. -/
def isLeafName (n : Str) : Bool := !decide (n = []) && !decide ('/' ∈ n)

/-- A valid name for a directory child: a nonempty separator-free segment
followed by the separator. -/
def isDirName (n : Str) : Bool :=
  match n.reverse with
  | c :: m => decide (c = '/') && (!decide (m = []) && !decide ('/' ∈ m))
  | [] => false

/-- The naming convention of the store (§3 of the specification): a child's
name ends in the separator exactly when the child is a directory-like node. -/
def nameMatch (n : Str) : VTree → Bool
  | .leaf => isLeafName n
  | _ => isDirName n

/-- Boolean freedom from duplicates. -/
def nodupB (l : List Str) : Bool := decide l.Nodup

mutual
/-- Well-formed tree: directory listings carry pairwise-distinct names obeying
the naming convention, and a malformed-keys node really holds a non-string. -/
def wfTree : VTree → Bool
  | .leaf => true
  | .dir f => nodupB (childNames f) && wfKids f
  | .deniedDir _ => true
  | .errDir _ => true
  | .noKeysDir => true
  | .nonStrDir es => es.any fun e => match e with | .nonStr _ => true | _ => false

/-- Well-formed children: each name matches its node's kind and each subtree is
well-formed. -/
def wfKids : VForest → Bool
  | .nil => true
  | .cons n t rest => nameMatch n t && wfTree t && wfKids rest
end

mutual
/-- The store answers every query about this subtree (rooted at walker path
`p`) with the behaviour the tree prescribes.  Children of a denied directory
are never queried, so they are unconstrained. -/
def servesTree (store : Str → Remote) (mount : Str) : Str → VTree → Bool
  | p, .leaf => decide (store (listQuery mount p) = .noData)
  | p, .dir f =>
    decide (store (listQuery mount p) = .keys ((childNames f).map Entry.str)) &&
      servesForest store mount p f
  | p, .deniedDir _ => decide (store (listQuery mount p) = .forbidden)
  | p, .errDir m => decide (store (listQuery mount p) = .respErr m)
  | p, .noKeysDir => decide (store (listQuery mount p) = .noKeys)
  | p, .nonStrDir es => decide (store (listQuery mount p) = .keys es)

def servesForest (store : Str → Remote) (mount : Str) : Str → VForest → Bool
  | _, .nil => true
  | p, .cons n t rest => servesTree store mount (p ++ n) t && servesForest store mount p rest
end

mutual
/-- Fuel needed to walk the subtree. -/
def heightT : VTree → Nat
  | .leaf => 0
  | .dir f => heightF f + 1
  | .deniedDir _ => 1
  | .errDir _ => 1
  | .noKeysDir => 1
  | .nonStrDir _ => 1

def heightF : VForest → Nat
  | .nil => 0
  | .cons _ t rest => max (heightT t) (heightF rest)
end

/-- `true` on every node the walker treats as a directory (everything except a
leaf).  `Walk` is only ever started on a directory root (§4.2). -/
def notLeaf : VTree → Bool
  | .leaf => false
  | _ => true

mutual
/-- The leaf paths the walker can actually collect, relative to the subtree
root: a leaf contributes the empty relative path, a directory the paths of its
children, and denied or failing nodes contribute nothing. -/
def relT : VTree → List Str
  | .leaf => [[]]
  | .dir f => relF f
  | .deniedDir _ => []
  | .errDir _ => []
  | .noKeysDir => []
  | .nonStrDir _ => []

def relF : VForest → List Str
  | .nil => []
  | .cons n t rest => (relT t).map (fun s => n ++ s) ++ relF rest
end

mutual
/-- All leaf paths of the tree, relative to the subtree root, including those
hidden below forbidden directories. -/
def relFullT : VTree → List Str
  | .leaf => [[]]
  | .dir f => relFullF f
  | .deniedDir f => relFullF f
  | .errDir _ => []
  | .noKeysDir => []
  | .nonStrDir _ => []

def relFullF : VForest → List Str
  | .nil => []
  | .cons n t rest => (relFullT t).map (fun s => n ++ s) ++ relFullF rest
end

mutual
/-- The leaf paths hidden below forbidden directories, relative to the subtree
root. -/
def relLostT : VTree → List Str
  | .leaf => []
  | .dir f => relLostF f
  | .deniedDir f => relFullF f
  | .errDir _ => []
  | .noKeysDir => []
  | .nonStrDir _ => []

def relLostF : VForest → List Str
  | .nil => []
  | .cons n t rest => (relLostT t).map (fun s => n ++ s) ++ relLostF rest
end

mutual
/-- The errors of the fatal nodes the walker reaches (denied subtrees are
pruned, so fatal nodes below them are not listed), tagged with the walker path
at which they occur. -/
def errListT : Str → VTree → List WalkErr
  | _, .leaf => []
  | p, .dir f => errListF p f
  | _, .deniedDir _ => []
  | p, .errDir m => [.listFailed p m]
  | p, .noKeysDir => [.missingKeys p]
  | p, .nonStrDir _ => [.nonStringKeys p]

def errListF : Str → VForest → List WalkErr
  | _, .nil => []
  | p, .cons n t rest => errListT (p ++ n) t ++ errListF p rest
end

/-- The leaf paths `Walk` returns for the subtree at walker path `p`. -/
def okLeaves (p : Str) (t : VTree) : List Str := (relT t).map (fun s => p ++ s)

/-- All leaf paths of the subtree at walker path `p`. -/
def allLeaves (p : Str) (t : VTree) : List Str := (relFullT t).map (fun s => p ++ s)

/-- The leaf paths below forbidden directories of the subtree at `p`. -/
def lostLeaves (p : Str) (t : VTree) : List Str := (relLostT t).map (fun s => p ++ s)

mutual
/-- A pure tree: only leaves and ordinary directories. -/
def pureT : VTree → Bool
  | .leaf => true
  | .dir f => pureF f
  | _ => false

def pureF : VForest → Bool
  | .nil => true
  | .cons _ t rest => pureT t && pureF rest
end

/-! ## Basic lemmas about names, suffixes and listings -/

theorem isLeafName_iff {n : Str} : isLeafName n = true ↔ n ≠ [] ∧ '/' ∉ n := by
  simp [isLeafName]

theorem isDirName_elim {n : Str} (h : isDirName n = true) :
    ∃ m, n = m ++ ['/'] ∧ m ≠ [] ∧ '/' ∉ m := by
  unfold isDirName at h
  match hr : n.reverse with
  | [] => rw [hr] at h; exact absurd h (by simp)
  | c :: m =>
    rw [hr] at h
    simp only [Bool.and_eq_true, Bool.not_eq_true', decide_eq_true_eq,
      decide_eq_false_iff_not] at h
    obtain ⟨hc, hm, hmem⟩ := h
    subst hc
    refine ⟨m.reverse, ?_, by simpa using hm, by simpa using hmem⟩
    have := congrArg List.reverse hr
    simpa [List.reverse_cons] using this

theorem hasSuffixSlash_append_leaf {n : Str} (p : Str) (h : isLeafName n = true) :
    hasSuffixSlash (p ++ n) = false := by
  obtain ⟨hne, hmem⟩ := isLeafName_iff.mp h
  unfold hasSuffixSlash
  rw [List.reverse_append]
  match hr : n.reverse with
  | [] => exact absurd (by simpa using congrArg List.reverse hr) hne
  | c :: cs =>
    have hcn : c ∈ n := by
      have : c ∈ n.reverse := by rw [hr]; exact List.mem_cons_self c cs
      simpa using this
    have : c ≠ '/' := fun hc => hmem (hc ▸ hcn)
    simp [this]

theorem hasSuffixSlash_append_dir {n : Str} (p : Str) (h : isDirName n = true) :
    hasSuffixSlash (p ++ n) = true := by
  obtain ⟨m, hm, -, -⟩ := isDirName_elim h
  subst hm
  unfold hasSuffixSlash
  rw [← List.append_assoc, List.reverse_append]
  simp

/-- Unambiguous tokenization: a separator-free segment followed by the
separator determines the split point. -/
theorem seg_unique :
    ∀ (m1 m2 s1 s2 : Str), '/' ∉ m1 → '/' ∉ m2 →
      m1 ++ '/' :: s1 = m2 ++ '/' :: s2 → m1 = m2 ∧ s1 = s2 := by
  intro m1
  induction m1 with
  | nil =>
    intro m2 s1 s2 _ h2 he
    match m2 with
    | [] => simpa using he
    | c :: m2' =>
      exfalso
      simp only [List.nil_append, List.cons_append, List.cons.injEq] at he
      exact h2 (he.1 ▸ List.mem_cons_self c m2')
  | cons c m1' ih =>
    intro m2 s1 s2 h1 h2 he
    match m2 with
    | [] =>
      exfalso
      simp only [List.nil_append, List.cons_append, List.cons.injEq] at he
      exact h1 (he.1.symm ▸ List.mem_cons_self c m1')
    | d :: m2' =>
      simp only [List.cons_append, List.cons.injEq] at he
      have h1' : '/' ∉ m1' := fun hx => h1 (List.mem_cons_of_mem c hx)
      have h2' : '/' ∉ m2' := fun hx => h2 (List.mem_cons_of_mem d hx)
      obtain ⟨hm, hs⟩ := ih m2' s1 s2 h1' h2' he.2
      exact ⟨by rw [he.1, hm], hs⟩

theorem islss_strs : ∀ names : List Str,
    interfaceSliceToStringSlice (names.map Entry.str) = .ok names := by
  intro names
  induction names with
  | nil => rfl
  | cons n rest ih => simp [interfaceSliceToStringSlice, ih]

theorem islss_nonstr : ∀ es : List Entry,
    (es.any fun e => match e with | .nonStr _ => true | _ => false) = true →
    interfaceSliceToStringSlice es = .error "element is not a string".data := by
  intro es h
  induction es with
  | nil => simp at h
  | cons e rest ih =>
    match e with
    | .nonStr t => rfl
    | .str s =>
      simp only [List.any_cons, Bool.or_eq_true] at h
      rcases h with h | h
      · exact absurd h (by simp)
      · simp [interfaceSliceToStringSlice, ih h]

theorem notLeaf_height {t : VTree} (h : notLeaf t = true) : 1 ≤ heightT t := by
  cases t <;> simp_all [heightT, notLeaf]

/-! ## Case behaviour of `listSecretDir` -/

theorem listSecretDir_forbidden {store : Str → Remote} {mount path : Str}
    (h : store (listQuery mount path) = .forbidden) :
    listSecretDir store mount path =
      ⟨.ok [], [("access to ".data ++ path ++ " is forbidden".data)],
        [GateEv.acq, GateEv.rel]⟩ := by
  unfold listSecretDir; rw [h]

theorem listSecretDir_respErr {store : Str → Remote} {mount path msg : Str}
    (h : store (listQuery mount path) = .respErr msg) :
    listSecretDir store mount path =
      ⟨.error (.listFailed path msg), [], [GateEv.acq, GateEv.rel]⟩ := by
  unfold listSecretDir; rw [h]

theorem listSecretDir_noData {store : Str → Remote} {mount path : Str}
    (h : store (listQuery mount path) = .noData) :
    listSecretDir store mount path = ⟨.ok [], [], [GateEv.acq, GateEv.rel]⟩ := by
  unfold listSecretDir; rw [h]

theorem listSecretDir_noKeys {store : Str → Remote} {mount path : Str}
    (h : store (listQuery mount path) = .noKeys) :
    listSecretDir store mount path =
      ⟨.error (.missingKeys path), [], [GateEv.acq, GateEv.rel]⟩ := by
  unfold listSecretDir; rw [h]

theorem listSecretDir_keys {store : Str → Remote} {mount path : Str}
    {es : List Entry} {ks : List Str} (h : store (listQuery mount path) = .keys es)
    (hk : interfaceSliceToStringSlice es = .ok ks) :
    listSecretDir store mount path = ⟨.ok ks, [], [GateEv.acq, GateEv.rel]⟩ := by
  unfold listSecretDir; rw [h]; simp [hk]

theorem listSecretDir_badKeys {store : Str → Remote} {mount path : Str}
    {es : List Entry} {msg : Str} (h : store (listQuery mount path) = .keys es)
    (hk : interfaceSliceToStringSlice es = .error msg) :
    listSecretDir store mount path =
      ⟨.error (.nonStringKeys path), [], [GateEv.acq, GateEv.rel]⟩ := by
  unfold listSecretDir; rw [h]; simp [hk]

/-! ## The main walk theorem -/

theorem map_append_shift (p n : Str) (l : List Str) :
    (l.map (fun s => n ++ s)).map (fun s => p ++ s) =
      l.map (fun s => (p ++ n) ++ s) := by
  simp [List.map_map, Function.comp_def, List.append_assoc]

/-- Conclusion of the walk theorem for the subtree at `p`, as a conjunction of
the error-free and the error case. -/
def WalkConcl (store : Str → Remote) (mount : Str) (fuel : Nat) (p : Str)
    (t : VTree) : Prop :=
  (errListT p t = [] →
    listSecretDirRecurse store mount fuel p = some (.ok (okLeaves p t))) ∧
  (errListT p t ≠ [] →
    ∃ e, e ∈ errListT p t ∧ listSecretDirRecurse store mount fuel p = some (.error e))

/-- The fan-out over a forest's children: every child task yields a result, and
the merged results carry the forest's walkable leaves, or one of its reachable
errors. -/
theorem spawn_aux (store : Str → Remote) (mount : Str) (fuel : Nat)
    (IH : ∀ t p, servesTree store mount p t = true → wfTree t = true →
      notLeaf t = true → heightT t ≤ fuel → WalkConcl store mount fuel p t) :
    ∀ f p, servesForest store mount p f = true → wfKids f = true →
      heightF f ≤ fuel →
      (errListF p f = [] →
        ∃ rs, spawnAll (listSecretDirRecurse store mount fuel) p (childNames f) = some rs ∧
          mergeResults rs = .ok ((relF f).map (fun s => p ++ s))) ∧
      (errListF p f ≠ [] →
        ∃ rs e, spawnAll (listSecretDirRecurse store mount fuel) p (childNames f) = some rs ∧
          e ∈ errListF p f ∧ mergeResults rs = .error e)
  | .nil, p => fun _ _ _ =>
    ⟨fun _ => ⟨[], rfl, rfl⟩, fun hne => absurd rfl hne⟩
  | .cons n t rest, p => fun hsf hwk hh => by
    obtain ⟨hst, hsrest⟩ : servesTree store mount (p ++ n) t = true ∧
        servesForest store mount p rest = true := by
      simpa [servesForest, Bool.and_eq_true] using hsf
    obtain ⟨⟨hnm, hwt⟩, hwrest⟩ : (nameMatch n t = true ∧ wfTree t = true) ∧
        wfKids rest = true := by
      simpa [wfKids, Bool.and_eq_true] using hwk
    have hht : heightT t ≤ fuel := le_trans (le_max_left _ _) (by simpa [heightF] using hh)
    have hhrest : heightF rest ≤ fuel :=
      le_trans (le_max_right _ _) (by simpa [heightF] using hh)
    have Hrest := spawn_aux store mount fuel IH rest p hsrest hwrest hhrest
    have hrestSome : ∃ rs', spawnAll (listSecretDirRecurse store mount fuel) p
        (childNames rest) = some rs' := by
      by_cases hre : errListF p rest = []
      · obtain ⟨rs', h1, -⟩ := Hrest.1 hre
        exact ⟨rs', h1⟩
      · obtain ⟨rs', e', h1, -, -⟩ := Hrest.2 hre
        exact ⟨rs', h1⟩
    match hlt : notLeaf t with
    | false =>
      -- a leaf child: recorded directly, never walked
      have ht : t = .leaf := by cases t <;> simp_all [notLeaf]
      subst ht
      have hslash : hasSuffixSlash (p ++ n) = false :=
        hasSuffixSlash_append_leaf p (by simpa [nameMatch] using hnm)
      have hspawn : ∀ rs', spawnAll (listSecretDirRecurse store mount fuel) p
          (childNames rest) = some rs' →
          spawnAll (listSecretDirRecurse store mount fuel) p
            (childNames (.cons n .leaf rest)) = some (.ok [p ++ n] :: rs') := by
        intro rs' h1
        simp [childNames, spawnAll, hslash, h1]
      constructor
      · intro hemp
        have hre : errListF p rest = [] := by simpa [errListF, errListT] using hemp
        obtain ⟨rs', h1, h2⟩ := Hrest.1 hre
        refine ⟨.ok [p ++ n] :: rs', hspawn rs' h1, ?_⟩
        simp [mergeResults, h2, relF, relT, okLeaves, map_append_shift]
      · intro hne
        have hre : errListF p rest ≠ [] := by simpa [errListF, errListT] using hne
        obtain ⟨rs', e', h1, hmem, h2⟩ := Hrest.2 hre
        refine ⟨.ok [p ++ n] :: rs', e', hspawn rs' h1, ?_, ?_⟩
        · simpa [errListF, errListT] using hmem
        · simp [mergeResults, h2]
    | true =>
      -- a directory-like child: walked recursively
      have hdn : isDirName n = true := by
        cases t <;> simp_all [nameMatch, notLeaf]
      have hslash : hasSuffixSlash (p ++ n) = true := hasSuffixSlash_append_dir p hdn
      have Ht := IH t (p ++ n) hst hwt hlt hht
      have hspawn : ∀ a rs', listSecretDirRecurse store mount fuel (p ++ n) = some a →
          spawnAll (listSecretDirRecurse store mount fuel) p (childNames rest) = some rs' →
          spawnAll (listSecretDirRecurse store mount fuel) p
            (childNames (.cons n t rest)) = some (a :: rs') := by
        intro a rs' ha h1
        simp [childNames, spawnAll, hslash, ha, h1]
      by_cases hte : errListT (p ++ n) t = []
      · have hwalk := Ht.1 hte
        constructor
        · intro hemp
          have hre : errListF p rest = [] := by
            have := hemp
            simp only [errListF, List.append_eq_nil] at this
            exact this.2
          obtain ⟨rs', h1, h2⟩ := Hrest.1 hre
          refine ⟨.ok (okLeaves (p ++ n) t) :: rs', hspawn _ rs' hwalk h1, ?_⟩
          simp [mergeResults, h2, relF, okLeaves, map_append_shift]
        · intro hne
          have hre : errListF p rest ≠ [] := by
            intro hre
            exact hne (by simp [errListF, hte, hre])
          obtain ⟨rs', e', h1, hmem, h2⟩ := Hrest.2 hre
          refine ⟨.ok (okLeaves (p ++ n) t) :: rs', e', hspawn _ rs' hwalk h1, ?_, ?_⟩
          · simp only [errListF]
            exact List.mem_append_right _ hmem
          · simp [mergeResults, h2]
      · obtain ⟨e, hmem, hwalk⟩ := Ht.2 hte
        obtain ⟨rs', h1⟩ := hrestSome
        constructor
        · intro hemp
          exfalso
          simp only [errListF, List.append_eq_nil] at hemp
          exact hte hemp.1
        · intro _
          refine ⟨.error e :: rs', e, hspawn _ rs' hwalk h1, ?_, rfl⟩
          simp only [errListF]
          exact List.mem_append_left _ hmem

/-- The walk theorem: on a well-formed synthetic tree, the walker returns the
walkable leaves (if no fatal node is reachable) or one of the reachable fatal
errors. -/
theorem walk_main (store : Str → Remote) (mount : Str) :
    ∀ (fuel : Nat) (t : VTree) (p : Str),
      servesTree store mount p t = true → wfTree t = true → notLeaf t = true →
      heightT t ≤ fuel → WalkConcl store mount fuel p t
  | 0, t, p => fun _ _ hn hh => by
    have := notLeaf_height hn
    omega
  | fuel + 1, t, p => fun hs hw hn hh => by
    have IH := walk_main store mount fuel
    cases t with
    | leaf => simp [notLeaf] at hn
    | dir f =>
      obtain ⟨hstore, hsf⟩ : store (listQuery mount p) =
          .keys ((childNames f).map Entry.str) ∧ servesForest store mount p f = true := by
        simpa [servesTree, Bool.and_eq_true] using hs
      obtain ⟨-, hwk⟩ : nodupB (childNames f) = true ∧ wfKids f = true := by
        simpa [wfTree, Bool.and_eq_true] using hw
      have hhf : heightF f ≤ fuel := by
        simp only [heightT] at hh
        omega
      have hdir := listSecretDir_keys hstore (islss_strs (childNames f))
      have Hf := spawn_aux store mount fuel IH f p hsf hwk hhf
      constructor
      · intro hemp
        have hfe : errListF p f = [] := by simpa [errListT] using hemp
        obtain ⟨rs, h1, h2⟩ := Hf.1 hfe
        simp [listSecretDirRecurse, hdir, h1, h2, okLeaves, relT]
      · intro hne
        have hfe : errListF p f ≠ [] := by simpa [errListT] using hne
        obtain ⟨rs, e, h1, hmem, h2⟩ := Hf.2 hfe
        refine ⟨e, by simpa [errListT] using hmem, ?_⟩
        simp [listSecretDirRecurse, hdir, h1, h2]
    | deniedDir f =>
      have hstore : store (listQuery mount p) = .forbidden := by
        simpa [servesTree] using hs
      constructor
      · intro _
        simp [listSecretDirRecurse, listSecretDir_forbidden hstore, spawnAll,
          mergeResults, okLeaves, relT]
      · intro hne
        exact absurd (by simp [errListT]) hne
    | errDir m =>
      have hstore : store (listQuery mount p) = .respErr m := by
        simpa [servesTree] using hs
      constructor
      · intro hemp
        exact absurd hemp (by simp [errListT])
      · intro _
        refine ⟨.listFailed p m, by simp [errListT], ?_⟩
        simp [listSecretDirRecurse, listSecretDir_respErr hstore]
    | noKeysDir =>
      have hstore : store (listQuery mount p) = .noKeys := by
        simpa [servesTree] using hs
      constructor
      · intro hemp
        exact absurd hemp (by simp [errListT])
      · intro _
        refine ⟨.missingKeys p, by simp [errListT], ?_⟩
        simp [listSecretDirRecurse, listSecretDir_noKeys hstore]
    | nonStrDir es =>
      have hstore : store (listQuery mount p) = .keys es := by
        simpa [servesTree] using hs
      have hbad : interfaceSliceToStringSlice es = .error "element is not a string".data :=
        islss_nonstr es (by simpa [wfTree] using hw)
      constructor
      · intro hemp
        exact absurd hemp (by simp [errListT])
      · intro _
        refine ⟨.nonStringKeys p, by simp [errListT], ?_⟩
        simp [listSecretDirRecurse, listSecretDir_badKeys hstore hbad]

/-! ## Distinctness of the collected leaf paths -/

theorem append_left_injective (n : Str) : Function.Injective (fun s => n ++ s) := by
  intro a b h
  simpa using h

theorem nameMatch_leaf_elim {n : Str} {t : VTree} (h : nameMatch n t = true)
    (hl : notLeaf t = false) : isLeafName n = true := by
  cases t <;> simp_all [nameMatch, notLeaf]

theorem nameMatch_dir_elim {n : Str} {t : VTree} (h : nameMatch n t = true)
    (hl : notLeaf t = true) : isDirName n = true := by
  cases t <;> simp_all [nameMatch, notLeaf]

theorem relT_leaf_elim {s : Str} {t : VTree} (hs : s ∈ relT t)
    (hl : notLeaf t = false) : s = [] := by
  cases t <;> simp_all [relT, notLeaf]

/-- A leaf name cannot be a directory name followed by anything: the former has
no separator, the latter contains one. -/
theorem leaf_dir_collision {n n' s' : Str} (hleaf : isLeafName n = true)
    (hd : isDirName n' = true) (heq : n' ++ s' = n) : False := by
  obtain ⟨-, hmem⟩ := isLeafName_iff.mp hleaf
  obtain ⟨m', hm', -, -⟩ := isDirName_elim hd
  subst hm'
  apply hmem
  rw [← heq, List.append_assoc]
  exact List.mem_append_right _ (by simp)

/-- Two distinct directory names never generate a common path. -/
theorem dir_dir_collision {n n' s s' : Str} (hd : isDirName n = true)
    (hd' : isDirName n' = true) (hne : n ≠ n') (heq : n' ++ s' = n ++ s) : False := by
  obtain ⟨m, hm, -, hmm⟩ := isDirName_elim hd
  obtain ⟨m', hm', -, hmm'⟩ := isDirName_elim hd'
  subst hm; subst hm'
  rw [List.append_assoc, List.append_assoc] at heq
  obtain ⟨hms, -⟩ := seg_unique m' m s' s hmm' hmm (by simpa using heq)
  exact hne (by rw [hms])

/-- No relative leaf path of a well-formed sibling forest can collide with
`n ++ s` when `n` is a name outside the forest, thanks to the unambiguous
segment naming. -/
theorem not_mem_relF (n : Str) (t : VTree) (hnm : nameMatch n t = true)
    (s : Str) (hs : s ∈ relT t) :
    ∀ f, wfKids f = true → n ∉ childNames f → (n ++ s) ∉ relF f
  | .nil => by simp [relF]
  | .cons n' t' rest => fun hwk hnin hmem => by
    obtain ⟨⟨hnm', hwt'⟩, hwrest⟩ : (nameMatch n' t' = true ∧ wfTree t' = true) ∧
        wfKids rest = true := by
      simpa [wfKids, Bool.and_eq_true] using hwk
    have hne : n ≠ n' := fun h => hnin (h ▸ List.mem_cons_self n' _)
    have hninr : n ∉ childNames rest := fun h => hnin (List.mem_cons_of_mem n' h)
    rcases List.mem_append.mp hmem with hl | hr
    · obtain ⟨s', hs', heq⟩ := List.mem_map.mp hl
      -- heq : n' ++ s' = n ++ s
      match hlt : notLeaf t, hlt' : notLeaf t' with
      | false, false =>
        have h1 := relT_leaf_elim hs hlt
        have h2 := relT_leaf_elim hs' hlt'
        subst h1; subst h2
        exact hne (by simpa using heq.symm)
      | false, true =>
        have h1 := relT_leaf_elim hs hlt
        subst h1
        exact leaf_dir_collision (nameMatch_leaf_elim hnm hlt)
          (nameMatch_dir_elim hnm' hlt') (by simpa using heq)
      | true, false =>
        have h2 := relT_leaf_elim hs' hlt'
        subst h2
        exact leaf_dir_collision (nameMatch_leaf_elim hnm' hlt')
          (nameMatch_dir_elim hnm hlt) (by simpa using heq.symm)
      | true, true =>
        exact dir_dir_collision (nameMatch_dir_elim hnm hlt)
          (nameMatch_dir_elim hnm' hlt') hne heq
    · exact not_mem_relF n t hnm s hs rest hwrest hninr hr

mutual
/-- The relative leaf paths of a well-formed tree are pairwise distinct. -/
theorem relT_nodup : ∀ t, wfTree t = true → (relT t).Nodup
  | .leaf => fun _ => by simp [relT]
  | .dir f => fun hw => by
    obtain ⟨hnd, hwk⟩ : nodupB (childNames f) = true ∧ wfKids f = true := by
      simpa [wfTree, Bool.and_eq_true] using hw
    exact relF_nodup f (by simpa [nodupB] using hnd) hwk
  | .deniedDir f => fun _ => by simp [relT]
  | .errDir m => fun _ => by simp [relT]
  | .noKeysDir => fun _ => by simp [relT]
  | .nonStrDir es => fun _ => by simp [relT]

theorem relF_nodup : ∀ f, (childNames f).Nodup → wfKids f = true → (relF f).Nodup
  | .nil => fun _ _ => by simp [relF]
  | .cons n t rest => fun hnd hwk => by
    obtain ⟨⟨hnm, hwt⟩, hwrest⟩ : (nameMatch n t = true ∧ wfTree t = true) ∧
        wfKids rest = true := by
      simpa [wfKids, Bool.and_eq_true] using hwk
    obtain ⟨hnin, hndrest⟩ := List.nodup_cons.mp (by simpa [childNames] using hnd)
    have h1 : ((relT t).map (fun s => n ++ s)).Nodup :=
      (relT_nodup t hwt).map (append_left_injective n)
    have h2 : (relF rest).Nodup := relF_nodup rest hndrest hwrest
    rw [relF, List.nodup_append]
    refine ⟨h1, h2, ?_⟩
    intro x hx hx'
    obtain ⟨s, hs, rfl⟩ := List.mem_map.mp hx
    exact not_mem_relF n t hnm s hs rest hwrest hnin hx'
end

/-! ## Pure trees and pruning -/

mutual
theorem pure_errT : ∀ t, pureT t = true → ∀ p, errListT p t = []
  | .leaf => fun _ _ => rfl
  | .dir f => fun h p => pure_errF f (by simpa [pureT] using h) p
  | .deniedDir f => fun h => by simp [pureT] at h
  | .errDir m => fun h => by simp [pureT] at h
  | .noKeysDir => fun h => by simp [pureT] at h
  | .nonStrDir es => fun h => by simp [pureT] at h

theorem pure_errF : ∀ f, pureF f = true → ∀ p, errListF p f = []
  | .nil => fun _ _ => rfl
  | .cons n t rest => fun h p => by
    obtain ⟨h1, h2⟩ : pureT t = true ∧ pureF rest = true := by
      simpa [pureF, Bool.and_eq_true] using h
    simp [errListF, pure_errT t h1, pure_errF rest h2]
end

mutual
theorem pure_relT : ∀ t, pureT t = true → relT t = relFullT t
  | .leaf => fun _ => rfl
  | .dir f => fun h => pure_relF f (by simpa [pureT] using h)
  | .deniedDir f => fun h => by simp [pureT] at h
  | .errDir m => fun h => by simp [pureT] at h
  | .noKeysDir => fun h => by simp [pureT] at h
  | .nonStrDir es => fun h => by simp [pureT] at h

theorem pure_relF : ∀ f, pureF f = true → relF f = relFullF f
  | .nil => fun _ => rfl
  | .cons n t rest => fun h => by
    obtain ⟨h1, h2⟩ : pureT t = true ∧ pureF rest = true := by
      simpa [pureF, Bool.and_eq_true] using h
    simp [relF, relFullF, pure_relT t h1, pure_relF rest h2]
end

theorem perm_shuffle (a b c d : List Str) :
    ((a ++ b) ++ (c ++ d)).Perm ((a ++ c) ++ (b ++ d)) := by
  have h1 : (a ++ b) ++ (c ++ d) = a ++ (b ++ (c ++ d)) := by simp
  have h2 : (a ++ c) ++ (b ++ d) = a ++ (c ++ (b ++ d)) := by simp
  rw [h1, h2]
  apply List.Perm.append_left
  have h3 : b ++ (c ++ d) = (b ++ c) ++ d := by simp
  have h4 : c ++ (b ++ d) = (c ++ b) ++ d := by simp
  rw [h3, h4]
  exact List.Perm.append_right d List.perm_append_comm

mutual
/-- Every leaf of the tree is either walkable or hidden below a forbidden
directory: the full leaf list is a permutation of the walkable leaves followed
by the lost ones. -/
theorem perm_fullT : ∀ t, (relFullT t).Perm (relT t ++ relLostT t)
  | .leaf => by simp [relFullT, relT, relLostT]
  | .dir f => by simpa [relFullT, relT, relLostT] using perm_fullF f
  | .deniedDir f => by simp [relFullT, relT, relLostT]
  | .errDir m => by simp [relFullT, relT, relLostT]
  | .noKeysDir => by simp [relFullT, relT, relLostT]
  | .nonStrDir es => by simp [relFullT, relT, relLostT]

theorem perm_fullF : ∀ f, (relFullF f).Perm (relF f ++ relLostF f)
  | .nil => by simp [relFullF, relF, relLostF]
  | .cons n t rest => by
    have h1 := (perm_fullT t).map (fun s => n ++ s)
    have h2 := perm_fullF rest
    have step1 : ((relFullT t).map (fun s => n ++ s) ++ relFullF rest).Perm
        (((relT t).map (fun s => n ++ s) ++ (relLostT t).map (fun s => n ++ s)) ++
          (relF rest ++ relLostF rest)) := by
      rw [← List.map_append]
      exact List.Perm.append h1 h2
    exact step1.trans (perm_shuffle _ _ _ _)
end

theorem perm_allLeaves (p : Str) (t : VTree) :
    (allLeaves p t).Perm (okLeaves p t ++ lostLeaves p t) := by
  have := (perm_fullT t).map (fun s => p ++ s)
  simpa [allLeaves, okLeaves, lostLeaves, List.map_append] using this

/-! ## The admission gate

Modelled from the spec (§4.1): the gate (`golang.org/x/sync/semaphore.Weighted`
in the Go code, an external dependency outside this repository) is a counting
admission controller: `Acquire()` blocks until a slot is free — i.e. the
acquire transition is enabled only while the number of holders is below the
capacity — and `Release()` returns a slot.  The state is the number of tasks
currently between a successful `Acquire` and the matching `Release`. -/

inductive GateStep (cap : Nat) : Nat → Nat → Prop where
  | acquire {h : Nat} : h + 1 ≤ cap → GateStep cap h (h + 1)
  | release {h : Nat} : GateStep cap (h + 1) h

/-- Gate states reachable from the idle gate. -/
inductive GateReach (cap : Nat) : Nat → Prop where
  | init : GateReach cap 0
  | step {a b : Nat} : GateReach cap a → GateStep cap a b → GateReach cap b

/-! ## The aggregation mutex and the writers of the shared collection

Modelled from the spec (§5) and the writer structure of
`listSecretDirRecurse`.  The shared `result` slice of one recursion level has
two kinds of writers:

* each goroutine spawned for a directory child (lines 118–128 of `main.go`)
  runs the protocol `mutex.Lock()`; append to the shared `result` slice (one
  append on either branch); `mutex.Unlock()` (via `defer`).  Program counters:
  `0` before `Lock`, `1` after `Lock` and before the append, `2` after the
  append and before `Unlock`, `3` done;
* the main goroutine, which at line 114 appends a leaf entry to the same
  `result` slice directly inside the fan-out loop, *without* taking the mutex
  — and the loop keeps running after goroutines have already been spawned, so
  there is no happens-before between this append and the goroutines' locked
  appends until `wg.Wait()` at line 130.  `mainAppends` counts these
  unsynchronized appends; the `mainAppend` transition carries no lock guard,
  exactly as the code takes none.

The lock transition blocks while the mutex is held; the append, unlock and
mainAppend transitions are *not* guarded by the semantics — which appends are
protected by the lock is a property of the program's protocol, not of the
mutex. -/

structure MuState where
  holder : Option Nat
  pc : Nat → Nat
  mainAppends : Nat

def initMu : MuState := ⟨none, fun _ => 0, 0⟩

inductive MuStep : MuState → MuState → Prop where
  | lock (s : MuState) (i : Nat) (h1 : s.holder = none) (h2 : s.pc i = 0) :
      MuStep s ⟨some i, fun k => if k = i then 1 else s.pc k, s.mainAppends⟩
  | append (s : MuState) (i : Nat) (h : s.pc i = 1) :
      MuStep s ⟨s.holder, fun k => if k = i then 2 else s.pc k, s.mainAppends⟩
  | unlock (s : MuState) (i : Nat) (h : s.pc i = 2) :
      MuStep s ⟨none, fun k => if k = i then 3 else s.pc k, s.mainAppends⟩
  | mainAppend (s : MuState) :
      MuStep s ⟨s.holder, s.pc, s.mainAppends + 1⟩

/-- States reachable by interleaving the main goroutine and any number of
spawned result-appending tasks. -/
inductive MuReach : MuState → Prop where
  | init : MuReach initMu
  | step {a b : MuState} : MuReach a → MuStep a b → MuReach b

/-- Task `i` is inside its critical section (between `Lock` and `Unlock`). -/
def inCrit (s : MuState) (i : Nat) : Prop := s.pc i = 1 ∨ s.pc i = 2

theorem mu_inv : ∀ s, MuReach s → ∀ i, inCrit s i → s.holder = some i := by
  intro s hr
  induction hr with
  | init => intro i hi; simp [initMu, inCrit] at hi
  | step hr hs ih =>
    cases hs with
    | lock i h1 h2 =>
      intro j hj
      simp only [inCrit] at hj
      by_cases hij : j = i
      · subst hij; rfl
      · exfalso
        simp only [if_neg hij] at hj
        have := ih j hj
        rw [h1] at this
        exact Option.noConfusion this
    | append i h =>
      intro j hj
      simp only [inCrit] at hj
      by_cases hij : j = i
      · subst hij
        exact ih j (Or.inl h)
      · simp only [if_neg hij] at hj
        exact ih j hj
    | unlock i h =>
      intro j hj
      simp only [inCrit] at hj
      by_cases hij : j = i
      · subst hij
        simp at hj
      · exfalso
        simp only [if_neg hij] at hj
        have hja := ih j hj
        have hia := ih i (Or.inr h)
        rw [hja] at hia
        exact hij (Option.some.inj hia)
    | mainAppend =>
      intro j hj
      exact ih j hj

/-! ## Spec-side description of child handling -/

/-- Modelled from the spec (§4.2 step 5): "For each entry in the listing,
construct the child's full path by concatenation with the parent path.  If the
child path does not end in the directory separator, it is a leaf: record it
directly.  If it does end in the separator, it is a directory: recursively
walk it as an independent concurrent task." -/
def specChildTask (walk : Str → Option (Except WalkErr (List Str)))
    (parent entry : Str) : Option (Except WalkErr (List Str)) :=
  let child := parent ++ entry
  if hasSuffixSlash child then walk child else some (.ok [child])

/-- The spec-side fan-out: one task per listing entry, all joined. -/
def specChildren (walk : Str → Option (Except WalkErr (List Str))) (parent : Str) :
    List Str → Option (List (Except WalkErr (List Str)))
  | [] => some []
  | e :: es =>
    match specChildTask walk parent e, specChildren walk parent es with
    | some a, some rs => some (a :: rs)
    | _, _ => none

theorem spawnAll_eq_specChildren (walk : Str → Option (Except WalkErr (List Str)))
    (parent : Str) : ∀ l, spawnAll walk parent l = specChildren walk parent l := by
  intro l
  induction l with
  | nil => rfl
  | cons e es ih => simp [spawnAll, specChildren, specChildTask, ih]

/-! ## The custom-metadata commands -/

/-- A JSON value stored under a custom-metadata key: a string or anything
else. -/
inductive JVal where
  | str (s : Str)
  | other (tag : Nat)
deriving DecidableEq

/-- A Go `map[string]any`, modelled as an association list whose semantics is
`cmGet` (first binding wins); `cmSet`/`cmDel` model Go map assignment and
`delete`. -/
abbrev CMap := List (Str × JVal)

def cmGet : CMap → Str → Option JVal
  | [], _ => none
  | (k', v) :: rest, k => if k' = k then some v else cmGet rest k

def cmDel : CMap → Str → CMap
  | [], _ => []
  | (k', v) :: rest, k => if k' = k then cmDel rest k else (k', v) :: cmDel rest k

def cmSet (m : CMap) (k : Str) (v : JVal) : CMap := (k, v) :: cmDel m k

/-- The `"path"` key. -/
def pathKey : Str := "path".data

/-- The behaviours of `client.KVv2(mount).GetMetadata` that the commands
distinguish: an error, a nil metadata value without error, or metadata whose
`CustomMetadata` map is possibly nil. -/
inductive MetaResp where
  | err (msg : Str)
  | nilMeta
  | meta (cm : Option CMap)

/-- The per-path body of `getcustommetas` (lines 196–212 of `main.go`),
without the semaphore/mutex plumbing which does not influence the produced
object: fetch the metadata, create the custom-metadata map if nil, store the
queried path under `"path"`.  `none` models the nil-pointer dereference the Go
code performs when `GetMetadata` returns nil metadata without error. -/
def getcustommetaOne (getMeta : Str → MetaResp) (path : Str) :
    Option (Except Str CMap) :=
  match getMeta path with
  | .err m => some (.error m)
  | .nilMeta => none
  | .meta cm => some (.ok (cmSet (cm.getD []) pathKey (.str path)))

/-- One iteration of the `setcustommetas` loop (lines 236–258 of `main.go`):
require a string-valued `"path"` key, remove it, fetch the metadata to check
the secret exists, then write the remaining entries as the secret's custom
metadata.  `putMeta` returns `some msg` when `PutMetadata` fails.  On success
the returned pair is the write that was performed. -/
def setcustommetaOne (getMeta : Str → MetaResp) (putMeta : Str → CMap → Option Str)
    (obj : CMap) : Except Str (Str × CMap) :=
  match cmGet obj pathKey with
  | none => .error "found object without path key".data
  | some (.other _) => .error "found object with non-string value for path".data
  | some (.str path) =>
    match getMeta path with
    | .err m => .error m
    | .nilMeta => .error ("secret on path ".data ++ path ++ " does not exist".data)
    | .meta _ =>
      match putMeta path (cmDel obj pathKey) with
      | some m => .error m
      | none => .ok (path, cmDel obj pathKey)

/-- The `setcustommetas` loop (lines 236–260 of `main.go`): process the decoded
objects in input order, stop at the first failing entry.  Returns the list of
writes performed, in order, and the terminal error if any. -/
def setcustommetas (getMeta : Str → MetaResp) (putMeta : Str → CMap → Option Str) :
    List CMap → List (Str × CMap) × Option Str
  | [] => ([], none)
  | obj :: rest =>
    match setcustommetaOne getMeta putMeta obj with
    | .error e => ([], some e)
    | .ok w =>
      let r := setcustommetas getMeta putMeta rest
      (w :: r.1, r.2)

theorem cmDel_of_get_none : ∀ (m : CMap) (k : Str), cmGet m k = none → cmDel m k = m := by
  intro m k h
  induction m with
  | nil => rfl
  | cons kv rest ih =>
    obtain ⟨k', v⟩ := kv
    by_cases hk : k' = k
    · rw [cmGet, if_pos hk] at h
      exact Option.noConfusion h
    · rw [cmGet, if_neg hk] at h
      rw [cmDel, if_neg hk, ih h]

/-- An error produced by a malformed listing (missing `keys` field or
non-string entries), as opposed to a transport error. -/
def malformedErr : WalkErr → Bool
  | .missingKeys _ => true
  | .nonStringKeys _ => true
  | .listFailed _ _ => false

/-! ## Witness fixtures: small concrete trees and stores -/

/-- The example forest of §8: children `x` (a leaf) and `b/` (a directory with
one leaf `y`). -/
def f0 : VForest :=
  .cons "x".data .leaf (.cons "b/".data (.dir (.cons "y".data .leaf .nil)) .nil)

def store0 : Str → Remote := fun q =>
  if q = "/metadata//".data then .keys [.str "x".data, .str "b/".data]
  else if q = "/metadata//b/".data then .keys [.str "y".data]
  else .noData

/-- The same shape with the subdirectory forbidden. -/
def fD : VForest :=
  .cons "x".data .leaf (.cons "b/".data (.deniedDir (.cons "y".data .leaf .nil)) .nil)

def storeD : Str → Remote := fun q =>
  if q = "/metadata//".data then .keys [.str "x".data, .str "b/".data]
  else if q = "/metadata//b/".data then .forbidden
  else .noData

/-- The same shape with a transport error below. -/
def fE : VForest :=
  .cons "x".data .leaf (.cons "b/".data (.errDir "boom".data) .nil)

def storeE : Str → Remote := fun q =>
  if q = "/metadata//".data then .keys [.str "x".data, .str "b/".data]
  else if q = "/metadata//b/".data then .respErr "boom".data
  else .noData

/-- A tree whose subdirectory response lacks the `keys` field. -/
def fB : VForest := .cons "b/".data .noKeysDir .nil

def storeB : Str → Remote := fun q =>
  if q = "/metadata//".data then .keys [.str "b/".data]
  else if q = "/metadata//b/".data then .noKeys
  else .noData

/-! ## The claims -/

/-- C1: for every synthetic tree of directories and leaves served by the
remote list-children operation, `Walk` on a directory root returns exactly the
leaf paths reachable from the root, each exactly once.  The admission-gate
capacity does not appear in the data path of the embedding: the gate only
schedules requests (see C2), so the result is the same for every capacity. -/
theorem claim_C1 (store : Str → Remote) (mount p : Str) (f : VForest) (fuel : Nat)
    (hs : servesTree store mount p (.dir f) = true)
    (hw : wfTree (.dir f) = true)
    (hp : pureT (.dir f) = true)
    (hh : heightT (.dir f) ≤ fuel) :
    listSecretDirRecurse store mount fuel p = some (.ok (allLeaves p (.dir f))) ∧
    (allLeaves p (.dir f)).Nodup := by
  have hemp : errListT p (.dir f) = [] := pure_errT _ hp p
  have h1 := (walk_main store mount fuel (.dir f) p hs hw rfl hh).1 hemp
  have heq : okLeaves p (.dir f) = allLeaves p (.dir f) := by
    simp only [okLeaves, allLeaves, pure_relT _ hp]
  refine ⟨heq ▸ h1, ?_⟩
  rw [← heq]
  exact (relT_nodup _ hw).map (append_left_injective p)

theorem claim_C1_witness :
    listSecretDirRecurse store0 [] 2 "/".data =
      some (.ok (allLeaves "/".data (.dir f0))) ∧
    (allLeaves "/".data (.dir f0)).Nodup :=
  claim_C1 store0 [] "/".data f0 2 (by decide) (by decide) (by decide) (by decide)

/-- C2: the number of tasks concurrently between a successful `Acquire` and
the matching `Release` on the admission gate never exceeds the fixed capacity
`concurrency = 10` (first conjunct, an invariant of every reachable gate
state), and every successful `Acquire` performed by `listSecretDir` is
followed by exactly one `Release` on every exit path, including when the
remote call returns an error (second conjunct: the gate trace is `[acq, rel]`
for every store behaviour). -/
theorem claim_C2 :
    (∀ h, GateReach concurrency h → h ≤ concurrency) ∧
    (∀ (store : Str → Remote) (mount path : Str),
      (listSecretDir store mount path).gate = [GateEv.acq, GateEv.rel]) := by
  constructor
  · intro h hr
    induction hr with
    | init => exact Nat.zero_le _
    | step hr hs ih =>
      cases hs with
      | acquire hle => exact hle
      | release => omega
  · intro store mount path
    cases hq : store (listQuery mount path)
    case keys es =>
      cases hk : interfaceSliceToStringSlice es <;> simp [listSecretDir, hq, hk]
    all_goals simp [listSecretDir, hq]

theorem claim_C2_witness :
    (2 ≤ concurrency) ∧
    (listSecretDir (fun _ => Remote.respErr "boom".data) [] []).gate =
      [GateEv.acq, GateEv.rel] :=
  ⟨claim_C2.1 2 (GateReach.step
      (GateReach.step GateReach.init (GateStep.acquire (by decide)))
      (GateStep.acquire (by decide))),
    claim_C2.2 (fun _ => Remote.respErr "boom".data) [] []⟩

/-- The racy state: child task `0` has taken the mutex (it is between `Lock`
and its append, as when the goroutine for a directory child listed before a
leaf child has started), and the main goroutine has not yet appended.  Reached
from the initial state by `lock 0`. -/
def muRace : MuState := ⟨some 0, fun k => if k = 0 then 1 else 0, 0⟩

/-- C3, against the code: the claim says every cross-goroutine mutation of the
shared partial-result collection is serialized under the mutex, but at line
114 of `main.go` the main goroutine appends a leaf entry to the shared
`result` slice without taking the mutex, inside the same loop that has already
spawned child goroutines appending to the same slice under the mutex (no
happens-before until `wg.Wait()` at line 130).  In the faithful writer model:
`muRace` is reachable, task `0` holds the mutex inside its critical section,
and the main goroutine's unguarded append transition nevertheless fires from
`muRace`, mutating the shared collection while the lock is held by another
task and leaving the holder untouched — the mutation is not serialized under
the lock. -/
theorem claim_C3 :
    MuReach muRace ∧ inCrit muRace 0 ∧ muRace.holder = some 0 ∧
    MuStep muRace ⟨muRace.holder, muRace.pc, muRace.mainAppends + 1⟩ ∧
    (⟨muRace.holder, muRace.pc, muRace.mainAppends + 1⟩ : MuState).holder =
      some 0 :=
  ⟨MuReach.step MuReach.init (MuStep.lock initMu 0 rfl rfl), Or.inl rfl, rfl,
    MuStep.mainAppend muRace, rfl⟩

/-- C4: a forbidden (403) listing is treated as an empty listing — no error,
a diagnostic line on stderr (third conjunct) — and the walk of a tree whose
only special nodes are forbidden directories succeeds, returning the full
tree's leaves minus the forbidden sub-trees (first conjunct, with the second
conjunct stating that the full leaf list is, up to order, the returned leaves
plus the leaves lost below forbidden nodes). -/
theorem claim_C4 (store : Str → Remote) (mount p : Str) (t : VTree) (fuel : Nat)
    (hs : servesTree store mount p t = true) (hw : wfTree t = true)
    (hn : notLeaf t = true) (hh : heightT t ≤ fuel)
    (hne : errListT p t = []) :
    listSecretDirRecurse store mount fuel p = some (.ok (okLeaves p t)) ∧
    (allLeaves p t).Perm (okLeaves p t ++ lostLeaves p t) ∧
    (∀ q, store (listQuery mount q) = .forbidden →
      listSecretDir store mount q =
        ⟨.ok [], [("access to ".data ++ q ++ " is forbidden".data)],
          [GateEv.acq, GateEv.rel]⟩) :=
  ⟨(walk_main store mount fuel t p hs hw hn hh).1 hne, perm_allLeaves p t,
    fun _ hq => listSecretDir_forbidden hq⟩

theorem claim_C4_witness :
    listSecretDirRecurse storeD [] 2 "/".data =
      some (.ok (okLeaves "/".data (.dir fD))) ∧
    (allLeaves "/".data (.dir fD)).Perm
      (okLeaves "/".data (.dir fD) ++ lostLeaves "/".data (.dir fD)) ∧
    (∀ q, storeD (listQuery [] q) = .forbidden →
      listSecretDir storeD [] q =
        ⟨.ok [], [("access to ".data ++ q ++ " is forbidden".data)],
          [GateEv.acq, GateEv.rel]⟩) :=
  claim_C4 storeD [] "/".data (.dir fD) 2 (by decide) (by decide) (by decide)
    (by decide) (by decide)

/-- C5: if the listing of any visited path fails with a non-forbidden,
non-no-data error, the walk returns one of the reachable nodes' errors and no
result paths (the `Except.error` branch carries no collected leaves, matching
the Go code's `return nil, err`: results gathered in sibling branches are
discarded). -/
theorem claim_C5 (store : Str → Remote) (mount p : Str) (t : VTree) (fuel : Nat)
    (hs : servesTree store mount p t = true) (hw : wfTree t = true)
    (hn : notLeaf t = true) (hh : heightT t ≤ fuel)
    (hne : errListT p t ≠ []) :
    ∃ e, e ∈ errListT p t ∧
      listSecretDirRecurse store mount fuel p = some (.error e) :=
  (walk_main store mount fuel t p hs hw hn hh).2 hne

theorem claim_C5_witness :
    ∃ e, e ∈ errListT "/".data (.dir fE) ∧
      listSecretDirRecurse storeE [] 2 "/".data = some (.error e) :=
  claim_C5 storeE [] "/".data (.dir fE) 2 (by decide) (by decide) (by decide)
    (by decide) (by decide)

/-- C6: the walker's child handling refines the specification's description:
when the listing succeeds, walking one more level is exactly — for each entry —
concatenating the entry onto the parent path, recording the child directly if
the result does not end in the separator, and walking it recursively if it
does, then merging all child results. -/
theorem claim_C6 (store : Str → Remote) (mount path : Str) (fuel : Nat)
    (subPaths : List Str)
    (h : (listSecretDir store mount path).res = .ok subPaths) :
    listSecretDirRecurse store mount (fuel + 1) path =
      (specChildren (listSecretDirRecurse store mount fuel) path subPaths).map
        mergeResults := by
  simp only [listSecretDirRecurse, h, ← spawnAll_eq_specChildren]
  cases hsp : spawnAll (listSecretDirRecurse store mount fuel) path subPaths <;>
    simp [hsp]

theorem claim_C6_witness :
    listSecretDirRecurse store0 [] 2 "/".data =
      (specChildren (listSecretDirRecurse store0 [] 1) "/".data
        ["x".data, "b/".data]).map mergeResults :=
  claim_C6 store0 [] "/".data 1 ["x".data, "b/".data] rfl

/-- C7: a listing response that lacks the `keys` field, or whose `keys` slice
contains a non-string element, makes `listSecretDir` fail (first and second
conjuncts, one per malformation), and a traversal whose reachable fatal nodes
are all of this kind terminates with such a malformed-listing error (third
conjunct). -/
theorem claim_C7 (store : Str → Remote) (mount p : Str) (t : VTree) (fuel : Nat)
    (hs : servesTree store mount p t = true) (hw : wfTree t = true)
    (hn : notLeaf t = true) (hh : heightT t ≤ fuel)
    (hne : errListT p t ≠ [])
    (hall : (errListT p t).all malformedErr = true) :
    (∀ q, store (listQuery mount q) = .noKeys →
      (listSecretDir store mount q).res = .error (.missingKeys q)) ∧
    (∀ q es, store (listQuery mount q) = .keys es →
      (es.any fun e => match e with | .nonStr _ => true | _ => false) = true →
      (listSecretDir store mount q).res = .error (.nonStringKeys q)) ∧
    ∃ e, e ∈ errListT p t ∧ malformedErr e = true ∧
      listSecretDirRecurse store mount fuel p = some (.error e) := by
  refine ⟨fun q hq => by rw [listSecretDir_noKeys hq],
    fun q es hq hnz => by rw [listSecretDir_badKeys hq (islss_nonstr es hnz)], ?_⟩
  obtain ⟨e, hmem, hwalk⟩ := (walk_main store mount fuel t p hs hw hn hh).2 hne
  exact ⟨e, hmem, List.all_eq_true.mp hall e hmem, hwalk⟩

theorem claim_C7_witness :
    (∀ q, storeB (listQuery [] q) = .noKeys →
      (listSecretDir storeB [] q).res = .error (.missingKeys q)) ∧
    (∀ q es, storeB (listQuery [] q) = .keys es →
      (es.any fun e => match e with | .nonStr _ => true | _ => false) = true →
      (listSecretDir storeB [] q).res = .error (.nonStringKeys q)) ∧
    ∃ e, e ∈ errListT "/".data (.dir fB) ∧ malformedErr e = true ∧
      listSecretDirRecurse storeB [] 2 "/".data = some (.error e) :=
  claim_C7 storeB [] "/".data (.dir fB) 2 (by decide) (by decide) (by decide)
    (by decide) (by decide) (by decide)

/-- C8: when the remote reports no data for a path (the path is a leaf, not a
directory), `listSecretDir` returns an empty listing, no error and no
diagnostic, and walking that path (at any remaining recursion depth) returns
the empty result — the branch terminates without re-adding the path itself. -/
theorem claim_C8 (store : Str → Remote) (mount path : Str)
    (h : store (listQuery mount path) = .noData) :
    (listSecretDir store mount path).res = .ok [] ∧
    (listSecretDir store mount path).stderr = [] ∧
    ∀ fuel, listSecretDirRecurse store mount (fuel + 1) path = some (.ok []) := by
  refine ⟨by rw [listSecretDir_noData h], by rw [listSecretDir_noData h],
    fun fuel => ?_⟩
  simp [listSecretDirRecurse, listSecretDir_noData h, spawnAll, mergeResults]

theorem claim_C8_witness :
    ((listSecretDir (fun _ => Remote.noData) [] "/x".data).res = .ok [] ∧
    (listSecretDir (fun _ => Remote.noData) [] "/x".data).stderr = [] ∧
    ∀ fuel, listSecretDirRecurse (fun _ => Remote.noData) [] (fuel + 1) "/x".data =
      some (.ok [])) :=
  claim_C8 (fun _ => Remote.noData) [] "/x".data rfl

/-- C9, counterexample to the claim as stated: when the custom metadata read
from the store already contains a `"path"` entry (here `"path" ↦ "old"`),
feeding the object produced by `getcustommetas` unchanged to `setcustommetas`
does *not* write back precisely the custom metadata that was read: the write
is the empty map, whose `"path"` lookup differs from the metadata that was
read, because `getcustommetas` overwrote the entry and `setcustommetas`
deleted it. -/
theorem claim_C9_cex :
    getcustommetaOne (fun _ => .meta (some [(pathKey, JVal.str "old".data)]))
      "p".data = some (.ok [(pathKey, JVal.str "p".data)]) ∧
    setcustommetaOne (fun _ => .meta (some [(pathKey, JVal.str "old".data)]))
      (fun _ _ => none) [(pathKey, JVal.str "p".data)] =
      .ok ("p".data, ([] : CMap)) ∧
    cmGet ([] : CMap) pathKey ≠
      cmGet [(pathKey, JVal.str "old".data)] pathKey :=
  ⟨rfl, rfl, by decide⟩

/-- C9, amended: for every queried secret path, `getcustommetas` emits a
metadata object with a `"path"` key equal to the queried path (creating the
map when the remote custom metadata is absent and overwriting any pre-existing
`"path"` entry); `setcustommetas` accepts exactly objects carrying a
string-valued `"path"` key, removing it before writing the remaining entries;
and — *provided the custom metadata that was read does not itself contain a
`"path"` key* — an object produced by `getcustommetas` and fed unchanged to
`setcustommetas` writes back precisely the custom metadata that was read. -/
theorem claim_C9 (getMeta : Str → MetaResp) (putMeta : Str → CMap → Option Str)
    (path : Str) (cm : Option CMap) (hm : getMeta path = .meta cm) :
    (getcustommetaOne getMeta path =
        some (.ok (cmSet (cm.getD []) pathKey (.str path))) ∧
      cmGet (cmSet (cm.getD []) pathKey (.str path)) pathKey =
        some (.str path)) ∧
    (∀ o : CMap, cmGet o pathKey = none →
      setcustommetaOne getMeta putMeta o =
        .error "found object without path key".data) ∧
    (∀ (o : CMap) (tag : Nat), cmGet o pathKey = some (.other tag) →
      setcustommetaOne getMeta putMeta o =
        .error "found object with non-string value for path".data) ∧
    (cmGet (cm.getD []) pathKey = none → putMeta path (cm.getD []) = none →
      setcustommetaOne getMeta putMeta (cmSet (cm.getD []) pathKey (.str path)) =
        .ok (path, cm.getD [])) := by
  refine ⟨⟨?_, ?_⟩, ?_, ?_, ?_⟩
  · rw [getcustommetaOne, hm]
  · simp [cmGet, cmSet]
  · intro o ho
    rw [setcustommetaOne, ho]
  · intro o tag ho
    rw [setcustommetaOne, ho]
  · intro hget hput
    have hobj : cmGet (cmSet (cm.getD []) pathKey (.str path)) pathKey =
        some (.str path) := by
      simp [cmGet, cmSet]
    have hdel : cmDel (cmSet (cm.getD []) pathKey (.str path)) pathKey =
        cm.getD [] := by
      rw [cmSet, cmDel_of_get_none _ _ hget, cmDel, if_pos rfl,
        cmDel_of_get_none _ _ hget]
    rw [setcustommetaOne]
    simp only [hobj, hm, hdel, hput]

def getMeta9 : Str → MetaResp := fun _ => .meta (some [("k".data, JVal.str "v".data)])

def putMeta9 : Str → CMap → Option Str := fun _ _ => none

theorem claim_C9_witness :
    getcustommetaOne getMeta9 "p".data =
      some (.ok (cmSet [("k".data, JVal.str "v".data)] pathKey (.str "p".data))) ∧
    setcustommetaOne getMeta9 putMeta9
      (cmSet [("k".data, JVal.str "v".data)] pathKey (.str "p".data)) =
      .ok ("p".data, [("k".data, JVal.str "v".data)]) :=
  have h := claim_C9 getMeta9 putMeta9 "p".data
    (some [("k".data, JVal.str "v".data)]) rfl
  ⟨h.1.1, h.2.2.2 (by decide) rfl⟩

/-- C10: `setcustommetas` processes its input objects strictly sequentially in
input order and stops at the first failing entry, returning its error; the
writes already performed for the earlier, successful entries remain applied
(they are exactly the writes in the returned trace), so the command is not
atomic with respect to the remote store — entries after the failing one are
never processed. -/
theorem claim_C10 (getMeta : Str → MetaResp) (putMeta : Str → CMap → Option Str) :
    ∀ (pre : List CMap) (ws : List (Str × CMap)) (bad : CMap) (rest : List CMap)
      (e : Str),
      List.Forall₂ (fun o w => setcustommetaOne getMeta putMeta o = .ok w) pre ws →
      setcustommetaOne getMeta putMeta bad = .error e →
      setcustommetas getMeta putMeta (pre ++ bad :: rest) = (ws, some e) := by
  intro pre ws bad rest e hf hbad
  induction hf with
  | nil => simp [setcustommetas, hbad]
  | cons h1 h2 ih => simp [setcustommetas, h1, ih]

def getMeta10 : Str → MetaResp := fun _ => .meta (some [])

def putMeta10 : Str → CMap → Option Str := fun _ _ => none

theorem claim_C10_witness :
    setcustommetas getMeta10 putMeta10 [[(pathKey, JVal.str "a".data)], []] =
      ([("a".data, ([] : CMap))], some "found object without path key".data) :=
  claim_C10 getMeta10 putMeta10 [[(pathKey, JVal.str "a".data)]]
    [("a".data, ([] : CMap))] [] [] "found object without path key".data
    (List.Forall₂.cons rfl List.Forall₂.nil) rfl

end Mutavault
